import Mathlib

/-!
Verification development for the Telegram/Gemini relay bot (`src/bot.py`).

The file embeds the conversation-state and message-delivery core of the bot:

* the long-message splitting loop of `GeminiTelegramBot.send_long_message`
  (bot.py lines 206-236), modelled as pure functions over `List Char`;
* the text-message handler `handle_text_message` (lines 114-163), with the
  Gemini backend abstracted as a function from (prior history, new text) to
  a success/failure outcome;
* the photo handler `handle_photo_message` (lines 165-204) with the vision
  backend abstracted the same way;
* the per-user chat-history store `self.chat_history` (a dict from user id
  to a list of role-tagged turns, missing key treated as the empty history).

The Python loop in `send_long_message` does not terminate when
`max_length = 0`; the embedding therefore runs the loop on explicit fuel,
and every theorem instantiates the fuel with `text.length`, which the
termination lemmas show is enough whenever `1 ≤ maxLength`.
-/

set_option maxRecDepth 20000

namespace GeminiBot

/-! ## Message chunker (bot.py lines 206-236) -/

/-- The break characters of the backward scan:
`text[cut_pos] not in ['\n', '.', '!', '?', ' ']` (bot.py line 222). -/
def isBreakChar (c : Char) : Bool :=
  c = '\n' || c = '.' || c = '!' || c = '?' || c = ' '

/-- ASCII whitespace stripped by Python `str.lstrip()` (bot.py line 229). -/
def isPySpace (c : Char) : Bool :=
  c = ' ' || c = '\t' || c = '\n' || c = '\r' || c = '\x0b' || c = '\x0c'

/-- `text[cut_pos:].lstrip()` (bot.py line 229). -/
def lstrip (l : List Char) : List Char := l.dropWhile isPySpace

/-- The backward scan
`while cut_pos > 0 and text[cut_pos] not in ['\n','.','!','?',' ']: cut_pos -= 1`
(bot.py lines 222-223), started at `cut_pos = max_length`.  The character at
index 0 is never examined: the loop stops as soon as `cut_pos = 0`.  All
indices examined are in range whenever `maxLength < text.length`; the `getD`
default never matters there. -/
def scanBack (text : List Char) : Nat → Nat
  | 0 => 0
  | i + 1 => if isBreakChar (text.getD (i + 1) '\x00') then i + 1 else scanBack text i

/-- The cut position actually used: the scan result, with the
`if cut_pos == 0: cut_pos = max_length` hard-cut fallback
(bot.py lines 225-226). -/
def cutPos (maxLength : Nat) (text : List Char) : Nat :=
  if scanBack text maxLength = 0 then maxLength else scanBack text maxLength

/-- The `while text:` splitting loop of bot.py lines 215-229, on explicit
fuel.  One loop iteration: if the remainder fits, emit it and stop
(lines 216-218); otherwise cut at `cutPos`, emit `text[:cut_pos]`
(line 228) and continue on `text[cut_pos:].lstrip()` (line 229). -/
def splitLoopFuel (maxLength : Nat) : Nat → List Char → List (List Char)
  | 0, _ => []
  | fuel + 1, text =>
    if text = [] then []
    else if text.length ≤ maxLength then [text]
    else
      let cp := cutPos maxLength text
      text.take cp :: splitLoopFuel maxLength fuel (lstrip (text.drop cp))

/-- The chunker: `send_long_message`'s splitting logic as a pure function.
A text that fits is sent as a single message (bot.py lines 210-211);
otherwise the splitting loop runs (lines 213-229). -/
def split (maxLength : Nat) (text : List Char) : List (List Char) :=
  if text.length ≤ maxLength then [text] else splitLoopFuel maxLength text.length text

/-- Ghost companion of `splitLoopFuel`: the whitespace pieces removed by the
`.lstrip()` of bot.py line 229, one per cut, in order. -/
def stripsFuel (maxLength : Nat) : Nat → List Char → List (List Char)
  | 0, _ => []
  | fuel + 1, text =>
    if text = [] then []
    else if text.length ≤ maxLength then []
    else
      let cp := cutPos maxLength text
      (text.drop cp).takeWhile isPySpace :: stripsFuel maxLength fuel (lstrip (text.drop cp))

/-- The whitespace stripped by the chunker on a given input, in order. -/
def strips (maxLength : Nat) (text : List Char) : List (List Char) :=
  if text.length ≤ maxLength then [] else stripsFuel maxLength text.length text

/-- Interleaves the emitted segments with the stripped whitespace, restoring
each stripped piece at the position it was removed from (after the segment
whose cut produced it). -/
def reassemble : List (List Char) → List (List Char) → List Char
  | [], ss => ss.flatten
  | p :: ps, [] => p ++ reassemble ps []
  | p :: ps, s :: ss => p ++ s ++ reassemble ps ss

/-! ## Conversation state and handlers (bot.py lines 23-163, 165-204) -/

/-- The `'role'` field of a history entry: `'user'` or `'model'`. -/
inductive Role where
  | user
  | model
  deriving DecidableEq

/-- One history entry `{'role': ..., 'parts': [...]}` (bot.py lines 131-134,
146-149). -/
structure Turn where
  role : Role
  parts : List String
  deriving DecidableEq

/-- `update.effective_user.id`. -/
abbrev UserId := Nat

/-- The per-process bot state: `self.chat_history`, a mapping from user id
to that user's history.  A user id absent from the Python dict behaves
exactly like one mapped to `[]` (bot.py lines 127-128), so the store is a
total function. -/
structure BotState where
  chat_history : UserId → List Turn

/-- The state right after `__init__`: `self.chat_history = \x7b\x7d`. -/
def empty_state : BotState := ⟨fun _ => []⟩

/-- Outcome of one Gemini call: the generated text, or the raised
exception's message `str(e)`. -/
inductive BackendResult where
  | ok (reply : String)
  | err (msg : String)
  deriving DecidableEq

/-- The error reply of the text path (bot.py lines 160-163). -/
def error_text (e : String) : String :=
  "❌ **Произошла ошибка:**\n`" ++ e ++ "`\n\nПопробуйте еще раз."

/-- The continuation tag prefixed to non-first segments
(bot.py line 236). -/
def continuation_tag (i total : Nat) : String :=
  "*...продолжение (" ++ toString i ++ "/" ++ toString total ++ ")*\n\n"

/-- `send_long_message` (bot.py lines 206-236): the messages actually sent,
in order.  A short text goes out verbatim; a long one goes out as the
chunker's segments, every segment after the first carrying the
continuation tag. -/
def send_long_message (text : String) : List String :=
  if text.length ≤ 4096 then [text]
  else
    let parts := split 4096 text.data
    parts.enum.map (fun ip =>
      if ip.1 = 0 then String.mk ip.2
      else continuation_tag (ip.1 + 1) parts.length ++ String.mk ip.2)

/-- `handle_text_message` for one user's history (bot.py lines 125-163):
append the user turn (lines 131-134), call the backend with the history
excluding the just-appended turn (`[:-1]`, lines 137-143); on success append
the model turn (lines 146-149), trim to the last 20 entries when over 20
(lines 152-153) and send the reply; on failure send the single error
message.  The `backend` argument abstracts `chat.send_message`. -/
def handle_text_message (hist : List Turn) (user_text : String)
    (backend : List Turn → String → BackendResult) : List Turn × List String :=
  let hist1 := hist ++ [⟨Role.user, [user_text]⟩]
  match backend hist1.dropLast user_text with
  | BackendResult.ok reply =>
    let hist2 := hist1 ++ [⟨Role.model, [reply]⟩]
    let hist3 := if hist2.length > 20 then hist2.drop (hist2.length - 20) else hist2
    (hist3, send_long_message reply)
  | BackendResult.err e => (hist1, [error_text e])

/-- A text event against the whole store: the handler reads and writes only
the sending user's history (bot.py line 116 keys everything by
`user_id`). -/
def dispatch_text (s : BotState) (uid : UserId) (user_text : String)
    (backend : List Turn → String → BackendResult) : BotState × List String :=
  let r := handle_text_message (s.chat_history uid) user_text backend
  (⟨fun u => if u = uid then r.1 else s.chat_history u⟩, r.2)

/-- The fixed default vision prompt (bot.py line 187). -/
def default_photo_prompt : String := "Опиши подробно что видишь на этом изображении"

/-- The error reply of the photo path (bot.py lines 201-204). -/
def photo_error_text (e : String) : String :=
  "❌ **Ошибка при анализе изображения:**\n`" ++ e ++ "`"

/-- The labelled analysis reply of the photo path (bot.py line 194). -/
def photo_reply_text (r : String) : String :=
  "🖼️ **Анализ изображения:**\n\n" ++ r

/-- `prompt = update.message.caption or "Опиши подробно ..."`
(bot.py line 187): Python `or` falls through to the default when the
caption is `None` or the empty string (both falsy). -/
def choose_prompt (caption : Option String) : String :=
  match caption with
  | none => default_photo_prompt
  | some c => if c.isEmpty then default_photo_prompt else c

/-- `handle_photo_message` (bot.py lines 165-204): build the prompt from the
caption, call the vision backend, send the labelled analysis or the single
error message.  The function never touches `self.chat_history`. -/
def handle_photo_message (s : BotState) (caption : Option String)
    (vision : String → BackendResult) : BotState × List String :=
  match vision (choose_prompt caption) with
  | BackendResult.ok reply => (s, send_long_message (photo_reply_text reply))
  | BackendResult.err e => (s, [photo_error_text e])

/-! ## Event sequences -/

/-- A run of text events whose backend calls all succeed; each event is
(user id, user text, backend reply). -/
def run_success (s : BotState) (evs : List (UserId × String × String)) : BotState :=
  evs.foldl (fun st ev => (dispatch_text st ev.1 ev.2.1 (fun _ _ => BackendResult.ok ev.2.2)).1) s

/-- A run of text events whose backend calls all fail. -/
def run_failing (s : BotState) (evs : List (UserId × String)) : BotState :=
  evs.foldl (fun st ev => (dispatch_text st ev.1 ev.2 (fun _ _ => BackendResult.err "boom")).1) s

/-- A run of all-success text events for a single user, tracked on that
user's history alone. -/
def run_user_success (hist : List Turn) (evs : List (String × String)) : List Turn :=
  evs.foldl (fun h ev => (handle_text_message h ev.1 (fun _ _ => BackendResult.ok ev.2)).1) hist

/-! ## Property-side definitions -/

/-- The role sequence of a history. -/
def rolesOf (h : List Turn) : List Role := h.map Turn.role

def roleIsUser : Role → Bool
  | Role.user => true
  | Role.model => false

def roleIsModel : Role → Bool
  | Role.user => false
  | Role.model => true

/-- A role sequence made of whole (user, model) pairs: even length,
starting with a user turn, strictly alternating. -/
def pairsUM : List Role → Bool
  | [] => true
  | [_] => false
  | a :: b :: rest => roleIsUser a && roleIsModel b && pairsUM rest

/-- The per-user history invariant of all-success runs: bounded by the cap
and made of whole user+model pairs. -/
def histInv (h : List Turn) : Prop :=
  h.length ≤ 20 ∧ pairsUM (rolesOf h) = true

/-! ## Concrete inputs used by counterexamples and witnesses -/

/-- A 5000-character text whose only break character at index ≤ 4096 is the
space at index 4080: the scenario of spec §8. -/
def ex1 : List Char := List.replicate 4080 'a' ++ ' ' :: List.replicate 919 'b'

/-- A 4097-character text whose index-0 character is a break character and
whose indices 1..4096 contain none. -/
def exHard : List Char := '.' :: List.replicate 4096 'a'

/-- The 11 alternating exchanges of the spec §8 scenario, with pairwise
distinct contents. -/
def evs11 : List (String × String) :=
  (List.range 11).map (fun i => ("u" ++ toString i, "m" ++ toString i))

/-! ## Chunker lemmas -/

theorem scanBack_le (text : List Char) : ∀ n : Nat, scanBack text n ≤ n
  | 0 => Nat.le_refl 0
  | n + 1 => by
    rw [scanBack]
    split
    · exact Nat.le_refl _
    · exact Nat.le_succ_of_le (scanBack_le text n)

theorem cutPos_le (m : Nat) (text : List Char) : cutPos m text ≤ m := by
  unfold cutPos
  split
  · exact Nat.le_refl m
  · exact scanBack_le text m

theorem cutPos_pos (m : Nat) (text : List Char) (hm : 1 ≤ m) : 1 ≤ cutPos m text := by
  unfold cutPos
  split
  · exact hm
  · omega

theorem splitLoopFuel_succ (m fuel : Nat) (text : List Char) :
    splitLoopFuel m (fuel + 1) text =
      if text = [] then []
      else if text.length ≤ m then [text]
      else
        text.take (cutPos m text) ::
          splitLoopFuel m fuel (lstrip (text.drop (cutPos m text))) := rfl

theorem stripsFuel_succ (m fuel : Nat) (text : List Char) :
    stripsFuel m (fuel + 1) text =
      if text = [] then []
      else if text.length ≤ m then []
      else
        (text.drop (cutPos m text)).takeWhile isPySpace ::
          stripsFuel m fuel (lstrip (text.drop (cutPos m text))) := rfl

theorem splitLoopFuel_part_le (m : Nat) :
    ∀ (fuel : Nat) (text p : List Char), p ∈ splitLoopFuel m fuel text → p.length ≤ m := by
  intro fuel
  induction fuel with
  | zero => intro text p hp; simp [splitLoopFuel] at hp
  | succ n ih =>
    intro text p hp
    rw [splitLoopFuel_succ] at hp
    by_cases h0 : text = []
    · simp [h0] at hp
    · rw [if_neg h0] at hp
      by_cases h1 : text.length ≤ m
      · rw [if_pos h1] at hp
        simp at hp
        exact hp ▸ h1
      · rw [if_neg h1] at hp
        rcases List.mem_cons.mp hp with h | h
        · subst h
          calc (text.take (cutPos m text)).length ≤ cutPos m text := by
                simp [List.length_take]
            _ ≤ m := cutPos_le m text
        · exact ih _ _ h

theorem splitLoopFuel_reassemble (m : Nat) (hm : 1 ≤ m) :
    ∀ (fuel : Nat) (text : List Char), text.length ≤ fuel →
      reassemble (splitLoopFuel m fuel text) (stripsFuel m fuel text) = text := by
  intro fuel
  induction fuel with
  | zero =>
    intro text h
    have : text = [] := List.eq_nil_of_length_eq_zero (Nat.le_zero.mp h)
    subst this
    rfl
  | succ n ih =>
    intro text hlen
    rw [splitLoopFuel_succ, stripsFuel_succ]
    by_cases h0 : text = []
    · rw [if_pos h0, if_pos h0]
      simp [reassemble, h0]
    · rw [if_neg h0, if_neg h0]
      by_cases h1 : text.length ≤ m
      · rw [if_pos h1, if_pos h1]
        simp [reassemble]
      · rw [if_neg h1, if_neg h1]
        have hcp : 1 ≤ cutPos m text := cutPos_pos m text hm
        have hrec : (lstrip (text.drop (cutPos m text))).length ≤ n := by
          have h2 : (lstrip (text.drop (cutPos m text))).length ≤ (text.drop (cutPos m text)).length :=
            (List.dropWhile_sublist isPySpace).length_le
          have h3 : (text.drop (cutPos m text)).length = text.length - cutPos m text :=
            List.length_drop _ _
          omega
        rw [reassemble, ih _ hrec]
        rw [lstrip, List.append_assoc, List.takeWhile_append_dropWhile, List.take_append_drop]

theorem splitLoopFuel_ne_nil (m : Nat) (hm : 1 ≤ m) :
    ∀ (fuel : Nat) (text p : List Char), p ∈ splitLoopFuel m fuel text → p ≠ [] := by
  intro fuel
  induction fuel with
  | zero => intro text p hp; simp [splitLoopFuel] at hp
  | succ n ih =>
    intro text p hp
    rw [splitLoopFuel_succ] at hp
    by_cases h0 : text = []
    · simp [h0] at hp
    · rw [if_neg h0] at hp
      by_cases h1 : text.length ≤ m
      · rw [if_pos h1] at hp
        simp at hp
        exact hp ▸ h0
      · rw [if_neg h1] at hp
        rcases List.mem_cons.mp hp with h | h
        · subst h
          have hl : 0 < text.length := List.length_pos.mpr h0
          have : 0 < (text.take (cutPos m text)).length := by
            simp [List.length_take]
            constructor
            · exact cutPos_pos m text hm
            · exact hl
          exact List.ne_nil_of_length_pos this
        · exact ih _ _ h

theorem split_head_of_long (text : List Char) (h : 4096 < text.length) :
    (split 4096 text).head? = some (text.take (cutPos 4096 text)) := by
  unfold split
  rw [if_neg (by omega)]
  obtain ⟨f, hf⟩ : ∃ f, text.length = f + 1 := ⟨text.length - 1, by omega⟩
  rw [hf, splitLoopFuel_succ]
  rw [if_neg (by intro hn; rw [hn] at h; simp at h)]
  rw [if_neg (by omega)]
  rfl

theorem scanBack_succ_of_break (text : List Char) (i : Nat)
    (h : isBreakChar (text.getD (i + 1) '\x00') = true) : scanBack text (i + 1) = i + 1 := by
  rw [scanBack, if_pos h]

theorem scanBack_add_of_no_break (text : List Char) (i : Nat) :
    ∀ k : Nat, (∀ j, i < j → j ≤ i + k → isBreakChar (text.getD j '\x00') = false) →
      scanBack text (i + k) = scanBack text i
  | 0, _ => rfl
  | k + 1, h => by
    have hb : isBreakChar (text.getD (i + k + 1) '\x00') = false :=
      h (i + k + 1) (by omega) (by omega)
    have : scanBack text (i + k + 1) = scanBack text (i + k) := by
      rw [scanBack, if_neg (by rw [hb]; simp)]
    rw [show i + (k + 1) = i + k + 1 from rfl, this]
    exact scanBack_add_of_no_break text i k (fun j hj1 hj2 => h j hj1 (by omega))

theorem scanBack_eq_zero (text : List Char) (n : Nat)
    (h : ∀ j, 1 ≤ j → j ≤ n → isBreakChar (text.getD j '\x00') = false) :
    scanBack text n = 0 := by
  have := scanBack_add_of_no_break text 0 n (fun j hj1 hj2 => h j hj1 (by omega))
  simpa using this

theorem getD_replicate_of_lt {α : Type} (a d : α) :
    ∀ (n i : Nat), i < n → (List.replicate n a).getD i d = a
  | 0, i, h => absurd h (Nat.not_lt_zero i)
  | n + 1, 0, _ => rfl
  | n + 1, i + 1, h => by
    rw [List.replicate_succ, List.getD_cons_succ]
    exact getD_replicate_of_lt a d n i (by omega)

/-! ## Claim theorems: chunker -/

/-- C4: for every input text (including text with no break characters, which
forces hard cuts), concatenating the chunker's segments with the stripped
leading whitespace re-inserted where it was removed reconstructs the
original text exactly. -/
theorem chunker_round_trip (text : List Char) :
    reassemble (split 4096 text) (strips 4096 text) = text := by
  unfold split strips
  by_cases h : text.length ≤ 4096
  · rw [if_pos h, if_pos h]
    simp [reassemble]
  · rw [if_neg h, if_neg h]
    exact splitLoopFuel_reassemble 4096 (by norm_num) text.length text (Nat.le_refl _)

/-- C5: no segment returned by the chunker exceeds maxLength (4096)
characters. -/
theorem chunker_segment_bound (text p : List Char) (hp : p ∈ split 4096 text) :
    p.length ≤ 4096 := by
  unfold split at hp
  by_cases h : text.length ≤ 4096
  · rw [if_pos h] at hp
    simp at hp
    exact hp ▸ h
  · rw [if_neg h] at hp
    exact splitLoopFuel_part_le 4096 _ _ _ hp

/-- Witness for C5 at a concrete input. -/
theorem chunker_segment_bound_witness :
    (List.replicate 3 'a') ∈ split 4096 (List.replicate 3 'a') ∧
    (List.replicate 3 'a').length ≤ 4096 :=
  ⟨by decide,
    chunker_segment_bound (List.replicate 3 'a') (List.replicate 3 'a') (by decide)⟩

/-- C7: every text of length at most 4096 is returned as exactly one
segment equal to the input (sequence_total = 1); in particular the empty
text yields a single empty segment. -/
theorem chunker_short_identity (text : List Char) (h : text.length ≤ 4096) :
    split 4096 text = [text] ∧ (split 4096 text).length = 1 := by
  unfold split
  rw [if_pos h]
  exact ⟨rfl, rfl⟩

/-- Witness for C7 at the empty input. -/
theorem chunker_short_identity_witness :
    (([] : List Char).length ≤ 4096) ∧ split 4096 [] = [[]] ∧
    (split 4096 ([] : List Char)).length = 1 :=
  ⟨by decide, (chunker_short_identity [] (by decide)).1,
    (chunker_short_identity [] (by decide)).2⟩

/-- General form of the first cut on the spec §8 scenario family: the cut
lands on the space at index 4080 and the space is excluded from the first
segment.  Shared by C1's counterexample and C1's amended theorem. -/
theorem first_cut_excludes_boundary_aux (text : List Char)
    (h5 : text.length = 5000)
    (hsp : text.getD 4080 '\x00' = ' ')
    (hnb : ((List.range' 4081 16).all fun j => !isBreakChar (text.getD j '\x00')) = true)
    (hne : lstrip (text.drop 4080) ≠ []) :
    split 4096 text = [text.take 4080, lstrip (text.drop 4080)] := by
  have hstep : scanBack text (4080 + 16) = scanBack text 4080 := by
    apply scanBack_add_of_no_break
    intro j hj1 hj2
    have hj : j ∈ List.range' 4081 16 := by
      rw [List.mem_range']
      exact ⟨j - 4081, by omega, by omega⟩
    have := List.all_eq_true.mp hnb j hj
    simpa using this
  have h4080 : scanBack text 4080 = 4080 := by
    rw [show (4080 : Nat) = 4079 + 1 from rfl]
    apply scanBack_succ_of_break
    rw [show (4079 + 1 : Nat) = 4080 from rfl, hsp]
    decide
  have hscan : scanBack text 4096 = 4080 := by
    rw [show (4096 : Nat) = 4080 + 16 from rfl, hstep, h4080]
  have hcp : cutPos 4096 text = 4080 := by
    unfold cutPos
    rw [hscan]
    simp
  have hnn : text ≠ [] := by
    intro h
    rw [h] at h5
    simp at h5
  unfold split
  rw [if_neg (by omega), h5]
  rw [show (5000 : Nat) = 4999 + 1 from rfl, splitLoopFuel_succ]
  rw [if_neg hnn, if_neg (by omega), hcp]
  congr 1
  have hfit : (lstrip (text.drop 4080)).length ≤ 4096 := by
    have h2 : (lstrip (text.drop 4080)).length ≤ (text.drop 4080).length :=
      (List.dropWhile_sublist isPySpace).length_le
    have h3 : (text.drop 4080).length = text.length - 4080 := List.length_drop _ _
    omega
  rw [show (4999 : Nat) = 4998 + 1 from rfl, splitLoopFuel_succ]
  rw [if_neg hne, if_pos hfit]

theorem ex1_length : ex1.length = 5000 := by
  unfold ex1
  rw [List.length_append, List.length_replicate, List.length_cons, List.length_replicate]

theorem ex1_getD_4080 : ex1.getD 4080 '\x00' = ' ' := by
  unfold ex1
  rw [List.getD_eq_getElem?_getD]
  rw [List.getElem?_append_right (by rw [List.length_replicate])]
  rw [List.length_replicate]
  rw [show (4080 - 4080 : Nat) = 0 from rfl, List.getElem?_cons_zero]
  rfl

theorem ex1_getD_hi (j : Nat) (h1 : 4081 ≤ j) (h2 : j ≤ 4096) : ex1.getD j '\x00' = 'b' := by
  unfold ex1
  rw [List.getD_eq_getElem?_getD]
  rw [List.getElem?_append_right (by rw [List.length_replicate]; omega)]
  obtain ⟨k, hk⟩ : ∃ k, j - (List.replicate 4080 'a').length = k + 1 :=
    ⟨j - (List.replicate 4080 'a').length - 1, by rw [List.length_replicate]; omega⟩
  rw [hk, List.getElem?_cons_succ]
  have hklt : k < 919 := by
    rw [List.length_replicate] at hk
    omega
  rw [List.getElem?_replicate_of_lt hklt]
  rfl

theorem ex1_drop_4080 : ex1.drop 4080 = ' ' :: List.replicate 919 'b' := by
  unfold ex1
  exact List.drop_left' (by rw [List.length_replicate])

theorem ex1_lstrip : lstrip (ex1.drop 4080) = List.replicate 919 'b' := by
  rw [ex1_drop_4080, lstrip, List.dropWhile_cons]
  rw [if_pos (by decide)]
  rw [show (919 : Nat) = 918 + 1 from rfl, List.replicate_succ, List.dropWhile_cons]
  rw [if_neg (by decide)]

theorem ex1_ne : lstrip (ex1.drop 4080) ≠ [] := by
  rw [ex1_lstrip]
  intro h
  rw [List.replicate_eq_nil_iff] at h
  omega

theorem ex1_nb : ((List.range' 4081 16).all fun j => !isBreakChar (ex1.getD j '\x00')) = true := by
  rw [List.all_eq_true]
  intro j hj
  rw [List.mem_range'] at hj
  obtain ⟨i, hi, rfl⟩ := hj
  rw [ex1_getD_hi (4081 + 1 * i) (by omega) (by omega)]
  decide

/-- C1 counterexample: on the spec §8 scenario input (5000 characters, last
break character at index ≤ 4096 a space at index 4080) the first emitted
segment is NOT text[0:4081]: the cut character is not included in the
emitted part. -/
theorem first_cut_keeps_boundary_refuted :
    (split 4096 ex1).head? ≠ some (ex1.take 4081) := by
  rw [first_cut_excludes_boundary_aux ex1 ex1_length ex1_getD_4080 ex1_nb ex1_ne]
  rw [List.head?_cons]
  intro hcontra
  have h' := Option.some.inj hcontra
  have hl := congrArg List.length h'
  rw [List.length_take, List.length_take, ex1_length] at hl
  omega

/-- The index a non-zero scan result points at holds a break character. -/
theorem scanBack_is_break (text : List Char) :
    ∀ n : Nat, scanBack text n ≠ 0 →
      isBreakChar (text.getD (scanBack text n) '\x00') = true
  | 0, h => absurd rfl h
  | n + 1, h => by
    by_cases hb : isBreakChar (text.getD (n + 1) '\x00') = true
    · rw [scanBack, if_pos hb]
      exact hb
    · rw [scanBack, if_neg hb]
      rw [scanBack, if_neg hb] at h
      exact scanBack_is_break text n h

/-- No index strictly above the scan result and within the scanned range
holds a break character: the scan stops at the largest break index. -/
theorem scanBack_maximal (text : List Char) :
    ∀ n j : Nat, scanBack text n < j → j ≤ n →
      isBreakChar (text.getD j '\x00') = false
  | 0, j, h1, h2 => absurd h1 (by omega)
  | n + 1, j, h1, h2 => by
    by_cases hb : isBreakChar (text.getD (n + 1) '\x00') = true
    · rw [scanBack, if_pos hb] at h1
      exact absurd h1 (by omega)
    · rw [scanBack, if_neg hb] at h1
      by_cases hj : j = n + 1
      · subst hj
        cases hv : isBreakChar (text.getD (n + 1) '\x00')
        · rfl
        · exact absurd hv hb
      · exact scanBack_maximal text n j h1 (by omega)

theorem splitLoopFuel_nil (m fuel : Nat) : splitLoopFuel m fuel [] = [] := by
  cases fuel with
  | zero => rfl
  | succ f => rw [splitLoopFuel_succ, if_pos rfl]

/-- The loop result does not depend on the fuel once the fuel covers the
text length. -/
theorem splitLoopFuel_congr (m : Nat) (hm : 1 ≤ m) :
    ∀ (fuel₁ fuel₂ : Nat) (text : List Char), text.length ≤ fuel₁ → text.length ≤ fuel₂ →
      splitLoopFuel m fuel₁ text = splitLoopFuel m fuel₂ text := by
  intro fuel₁
  induction fuel₁ with
  | zero =>
    intro fuel₂ text h1 h2
    have : text = [] := List.eq_nil_of_length_eq_zero (Nat.le_zero.mp h1)
    subst this
    rw [splitLoopFuel_nil, splitLoopFuel_nil]
  | succ f ih =>
    intro fuel₂ text h1 h2
    cases fuel₂ with
    | zero =>
      have : text = [] := List.eq_nil_of_length_eq_zero (Nat.le_zero.mp h2)
      subst this
      rw [splitLoopFuel_nil, splitLoopFuel_nil]
    | succ g =>
      rw [splitLoopFuel_succ, splitLoopFuel_succ]
      by_cases h0 : text = []
      · rw [if_pos h0, if_pos h0]
      · rw [if_neg h0, if_neg h0]
        by_cases hl : text.length ≤ m
        · rw [if_pos hl, if_pos hl]
        · rw [if_neg hl, if_neg hl]
          have hcp := cutPos_pos m text hm
          have hr1 : (lstrip (text.drop (cutPos m text))).length ≤
              (text.drop (cutPos m text)).length :=
            (List.dropWhile_sublist isPySpace).length_le
          have hr2 : (text.drop (cutPos m text)).length = text.length - cutPos m text :=
            List.length_drop _ _
          congr 1
          exact ih g _ (by omega) (by omega)

/-- With enough fuel the loop computes `split` on any non-empty text. -/
theorem splitLoopFuel_eq_split (m : Nat) (hm : 1 ≤ m) (fuel : Nat) (text : List Char)
    (hf : text.length ≤ fuel) (hne : text ≠ []) :
    splitLoopFuel m fuel text = split m text := by
  unfold split
  by_cases hl : text.length ≤ m
  · rw [if_pos hl]
    have hpos : 0 < text.length := List.length_pos.mpr hne
    obtain ⟨f, rfl⟩ : ∃ f, fuel = f + 1 := ⟨fuel - 1, by omega⟩
    rw [splitLoopFuel_succ, if_neg hne, if_pos hl]
  · rw [if_neg hl]
    exact splitLoopFuel_congr m hm fuel text.length text hf (Nat.le_refl _)

/-- C1 (amended): for every input text longer than 4096, the chunker cuts
at `cutPos`, which — whenever the backward scan finds a break character
(scan result non-zero) — is the LARGEST index in [1, 4096] holding a break
character; the cut character is EXCLUDED from the emitted part (the first
segment is text[0:cutPos]); the cut character begins the remainder
text[cutPos:], whose leading whitespace is then stripped before the loop
continues (so a whitespace cut character is dropped there, while a
non-whitespace one such as '.', '!' or '?' survives and starts the next
segment); in the §8 scenario (length 5000, last break at index ≤ 4096 a
space at index 4080) the segments are text[0:4080] and the stripped
remainder. -/
theorem first_cut_excludes_boundary :
    (∀ text : List Char, 4096 < text.length →
      (1 ≤ cutPos 4096 text ∧ cutPos 4096 text ≤ 4096) ∧
      (scanBack text 4096 ≠ 0 →
        cutPos 4096 text = scanBack text 4096 ∧
        isBreakChar (text.getD (cutPos 4096 text) '\x00') = true ∧
        ∀ j, cutPos 4096 text < j → j ≤ 4096 →
          isBreakChar (text.getD j '\x00') = false) ∧
      (split 4096 text).head? = some (text.take (cutPos 4096 text)) ∧
      (text.drop (cutPos 4096 text)).getD 0 '\x00' = text.getD (cutPos 4096 text) '\x00' ∧
      (isPySpace (text.getD (cutPos 4096 text) '\x00') = false →
        lstrip (text.drop (cutPos 4096 text)) = text.drop (cutPos 4096 text)) ∧
      (lstrip (text.drop (cutPos 4096 text)) = [] →
        split 4096 text = [text.take (cutPos 4096 text)]) ∧
      (lstrip (text.drop (cutPos 4096 text)) ≠ [] →
        split 4096 text =
          text.take (cutPos 4096 text) ::
            split 4096 (lstrip (text.drop (cutPos 4096 text))))) ∧
    (∀ text : List Char, text.length = 5000 →
      text.getD 4080 '\x00' = ' ' →
      ((List.range' 4081 16).all fun j => !isBreakChar (text.getD j '\x00')) = true →
      lstrip (text.drop 4080) ≠ [] →
      split 4096 text = [text.take 4080, lstrip (text.drop 4080)]) := by
  constructor
  · intro text hlong
    have hcp1 : 1 ≤ cutPos 4096 text := cutPos_pos 4096 text (by norm_num)
    have hcp2 : cutPos 4096 text ≤ 4096 := cutPos_le 4096 text
    have hnn : text ≠ [] := by
      intro h
      rw [h] at hlong
      simp at hlong
    have hcplt : cutPos 4096 text < text.length := by omega
    have hcons : text.drop (cutPos 4096 text) =
        text[cutPos 4096 text] :: text.drop (cutPos 4096 text + 1) :=
      List.drop_eq_getElem_cons hcplt
    have hgd : text.getD (cutPos 4096 text) '\x00' = text[cutPos 4096 text] := by
      rw [List.getD_eq_getElem?_getD, List.getElem?_eq_getElem hcplt, Option.getD_some]
    refine ⟨⟨hcp1, hcp2⟩, ?_, ?_, ?_, ?_, ?_, ?_⟩
    · intro hsb
      have hceq : cutPos 4096 text = scanBack text 4096 := by
        unfold cutPos
        rw [if_neg hsb]
      refine ⟨hceq, ?_, ?_⟩
      · rw [hceq]
        exact scanBack_is_break text 4096 hsb
      · intro j hj1 hj2
        rw [hceq] at hj1
        exact scanBack_maximal text 4096 j hj1 hj2
    · exact split_head_of_long text hlong
    · rw [hcons, List.getD_cons_zero, hgd]
    · intro hns
      rw [hcons, lstrip, List.dropWhile_cons, if_neg (by rw [← hgd, hns]; simp)]
    · intro hnil
      unfold split
      rw [if_neg (by omega)]
      obtain ⟨f, hf⟩ : ∃ f, text.length = f + 1 := ⟨text.length - 1, by omega⟩
      rw [hf, splitLoopFuel_succ, if_neg hnn, if_neg (by omega), hnil, splitLoopFuel_nil]
    · intro hne2
      have hrlen : (lstrip (text.drop (cutPos 4096 text))).length ≤ text.length - 1 := by
        have h2 : (lstrip (text.drop (cutPos 4096 text))).length ≤
            (text.drop (cutPos 4096 text)).length :=
          (List.dropWhile_sublist isPySpace).length_le
        have h3 : (text.drop (cutPos 4096 text)).length = text.length - cutPos 4096 text :=
          List.length_drop _ _
        omega
      conv_lhs => rw [split]
      rw [if_neg (by omega)]
      obtain ⟨f, hf⟩ : ∃ f, text.length = f + 1 := ⟨text.length - 1, by omega⟩
      rw [hf, splitLoopFuel_succ, if_neg hnn, if_neg (by omega)]
      congr 1
      exact splitLoopFuel_eq_split 4096 (by norm_num) f _ (by omega) hne2
  · exact first_cut_excludes_boundary_aux

theorem ex1_scanBack : scanBack ex1 4096 = 4080 := by
  have hstep : scanBack ex1 (4080 + 16) = scanBack ex1 4080 := by
    apply scanBack_add_of_no_break
    intro j hj1 hj2
    rw [ex1_getD_hi j (by omega) (by omega)]
    decide
  have h4080 : scanBack ex1 4080 = 4080 := by
    rw [show (4080 : Nat) = 4079 + 1 from rfl]
    apply scanBack_succ_of_break
    rw [show (4079 + 1 : Nat) = 4080 from rfl, ex1_getD_4080]
    decide
  rw [show (4096 : Nat) = 4080 + 16 from rfl, hstep, h4080]

theorem ex1_cutPos : cutPos 4096 ex1 = 4080 := by
  unfold cutPos
  rw [ex1_scanBack]
  decide

/-- Witness for C1's amended theorem: the concrete §8 scenario input
discharges both the universal part's hypotheses (long text, non-zero scan,
non-empty stripped remainder) and the scenario part's hypotheses. -/
theorem first_cut_excludes_boundary_witness :
    4096 < ex1.length ∧
    scanBack ex1 4096 ≠ 0 ∧
    isBreakChar (ex1.getD (cutPos 4096 ex1) '\x00') = true ∧
    (split 4096 ex1).head? = some (ex1.take (cutPos 4096 ex1)) ∧
    lstrip (ex1.drop (cutPos 4096 ex1)) ≠ [] ∧
    split 4096 ex1 =
      ex1.take (cutPos 4096 ex1) :: split 4096 (lstrip (ex1.drop (cutPos 4096 ex1))) ∧
    split 4096 ex1 = [ex1.take 4080, lstrip (ex1.drop 4080)] := by
  have hlen : 4096 < ex1.length := by
    rw [ex1_length]
    omega
  have hsb : scanBack ex1 4096 ≠ 0 := by
    rw [ex1_scanBack]
    omega
  have hne2 : lstrip (ex1.drop (cutPos 4096 ex1)) ≠ [] := by
    rw [ex1_cutPos]
    exact ex1_ne
  have hA := first_cut_excludes_boundary.1 ex1 hlen
  exact ⟨hlen, hsb, (hA.2.1 hsb).2.1, hA.2.2.1, hne2, hA.2.2.2.2.2.2 hne2,
    first_cut_excludes_boundary.2 ex1 ex1_length ex1_getD_4080 ex1_nb ex1_ne⟩

/-- C10: when the backward scan reaches index 0 a hard cut of exactly 4096
characters is made (a break character at index 0 is never used as a cut
point), and every non-final emitted segment is non-empty. -/
theorem hard_cut_when_scan_hits_zero (text : List Char) :
    (4096 < text.length → scanBack text 4096 = 0 →
      (split 4096 text).head? = some (text.take 4096)) ∧
    ∀ p ∈ (split 4096 text).dropLast, p ≠ [] := by
  constructor
  · intro h hs
    rw [split_head_of_long text h]
    unfold cutPos
    rw [hs]
    simp
  · intro p hp
    have hp2 : p ∈ split 4096 text := List.mem_of_mem_dropLast hp
    unfold split at hp2
    by_cases h : text.length ≤ 4096
    · rw [if_pos h] at hp2
      unfold split at hp
      rw [if_pos h] at hp
      simp at hp
    · rw [if_neg h] at hp2
      exact splitLoopFuel_ne_nil 4096 (by norm_num) _ _ _ hp2

/-- Witness for C10 at a concrete input whose index-0 character is itself a
break character and which has no other break character in [1, 4096]. -/
theorem hard_cut_when_scan_hits_zero_witness :
    4096 < exHard.length ∧ scanBack exHard 4096 = 0 ∧
    isBreakChar (exHard.getD 0 '\x00') = true ∧
    (split 4096 exHard).head? = some (exHard.take 4096) := by
  have hlen : exHard.length = 4097 := by
    unfold exHard
    rw [List.length_cons, List.length_replicate]
  have hzero : scanBack exHard 4096 = 0 := by
    apply scanBack_eq_zero
    intro j hj1 hj2
    obtain ⟨k, hk⟩ : ∃ k, j = k + 1 := ⟨j - 1, by omega⟩
    subst hk
    unfold exHard
    rw [List.getD_cons_succ]
    rw [getD_replicate_of_lt 'a' '\x00' 4096 k (by omega)]
    decide
  exact ⟨by omega, hzero, by decide,
    (hard_cut_when_scan_hits_zero exHard).1 (by omega) hzero⟩

/-! ## History lemmas -/

theorem pairsUM_append_pair :
    ∀ l : List Role, pairsUM l = true → pairsUM (l ++ [Role.user, Role.model]) = true
  | [], _ => by decide
  | [_], h => by simp [pairsUM] at h
  | a :: b :: rest, h => by
    simp only [List.cons_append]
    simp only [pairsUM, Bool.and_eq_true] at h ⊢
    exact ⟨h.1, pairsUM_append_pair rest h.2⟩

theorem pairsUM_drop_two (l : List Role) (h : pairsUM l = true) : pairsUM (l.drop 2) = true := by
  match l with
  | [] => exact h
  | [_] => simp [pairsUM] at h
  | a :: b :: rest =>
    simp only [pairsUM, Bool.and_eq_true] at h
    simpa using h.2

theorem pairsUM_drop_even :
    ∀ (k : Nat) (l : List Role), pairsUM l = true → pairsUM (l.drop (2 * k)) = true
  | 0, l, h => by simpa using h
  | k + 1, l, h => by
    have h2 := pairsUM_drop_even k (l.drop 2) (pairsUM_drop_two l h)
    rw [List.drop_drop] at h2
    rw [show 2 * (k + 1) = 2 + 2 * k from by ring]
    exact h2

theorem pairsUM_length_even : ∀ l : List Role, pairsUM l = true → l.length % 2 = 0
  | [], _ => rfl
  | [_], h => by simp [pairsUM] at h
  | a :: b :: rest, h => by
    simp only [pairsUM, Bool.and_eq_true] at h
    have := pairsUM_length_even rest h.2
    simp only [List.length_cons]
    omega

theorem pairsUM_head (l : List Role) (h : pairsUM l = true) (hne : l ≠ []) :
    l.head? = some Role.user := by
  match l with
  | [] => exact absurd rfl hne
  | [_] => simp [pairsUM] at h
  | a :: b :: rest =>
    simp only [pairsUM, Bool.and_eq_true] at h
    have ha : a = Role.user := by
      cases a
      · rfl
      · simp [roleIsUser] at h
    rw [ha, List.head?_cons]

theorem handle_ok_fst (h : List Turn) (t r : String) :
    (handle_text_message h t (fun _ _ => BackendResult.ok r)).1 =
      if (h ++ [Turn.mk Role.user [t], Turn.mk Role.model [r]]).length > 20 then
        (h ++ [Turn.mk Role.user [t], Turn.mk Role.model [r]]).drop
          ((h ++ [Turn.mk Role.user [t], Turn.mk Role.model [r]]).length - 20)
      else h ++ [Turn.mk Role.user [t], Turn.mk Role.model [r]] := by
  simp only [handle_text_message, List.append_assoc, List.cons_append, List.nil_append]

theorem handle_ok_length (h : List Turn) (t r : String) :
    (handle_text_message h t (fun _ _ => BackendResult.ok r)).1.length = min (h.length + 2) 20 := by
  rw [handle_ok_fst]
  by_cases hc : (h ++ [Turn.mk Role.user [t], Turn.mk Role.model [r]]).length > 20
  · rw [if_pos hc, List.length_drop]
    rw [List.length_append] at hc ⊢
    simp only [List.length_cons, List.length_nil] at hc ⊢
    omega
  · rw [if_neg hc]
    rw [List.length_append] at hc ⊢
    simp only [List.length_cons, List.length_nil] at hc ⊢
    omega

theorem histInv_handle_ok (h : List Turn) (t r : String) (hi : histInv h) :
    histInv (handle_text_message h t (fun _ _ => BackendResult.ok r)).1 := by
  obtain ⟨hlen, hpairs⟩ := hi
  constructor
  · rw [handle_ok_length]
    omega
  · rw [handle_ok_fst]
    have hpL : pairsUM (rolesOf (h ++ [Turn.mk Role.user [t], Turn.mk Role.model [r]])) = true := by
      unfold rolesOf
      rw [List.map_append]
      rw [show (List.map Turn.role [Turn.mk Role.user [t], Turn.mk Role.model [r]] : List Role) =
            [Role.user, Role.model] from rfl]
      unfold rolesOf at hpairs
      exact pairsUM_append_pair _ hpairs
    by_cases hc : (h ++ [Turn.mk Role.user [t], Turn.mk Role.model [r]]).length > 20
    · rw [if_pos hc]
      have hLlen : (rolesOf (h ++ [Turn.mk Role.user [t], Turn.mk Role.model [r]])).length =
          (h ++ [Turn.mk Role.user [t], Turn.mk Role.model [r]]).length := by
        unfold rolesOf
        rw [List.length_map]
      have heven := pairsUM_length_even _ hpL
      obtain ⟨k, hk⟩ : ∃ k,
          (h ++ [Turn.mk Role.user [t], Turn.mk Role.model [r]]).length - 20 = 2 * k :=
        ⟨((h ++ [Turn.mk Role.user [t], Turn.mk Role.model [r]]).length - 20) / 2, by omega⟩
      unfold rolesOf
      rw [List.map_drop, hk]
      unfold rolesOf at hpL
      exact pairsUM_drop_even k _ hpL
    · rw [if_neg hc]
      exact hpL

theorem histInv_run_user (evs : List (String × String)) :
    ∀ h : List Turn, histInv h → histInv (run_user_success h evs) := by
  induction evs with
  | nil => intro h hi; exact hi
  | cons ev rest ih =>
    intro h hi
    exact ih _ (histInv_handle_ok h ev.1 ev.2 hi)

theorem run_user_success_length (evs : List (String × String)) :
    ∀ h : List Turn, h.length ≤ 20 →
      (run_user_success h evs).length = min (h.length + 2 * evs.length) 20 := by
  induction evs with
  | nil =>
    intro h hh
    show h.length = min (h.length + 2 * 0) 20
    omega
  | cons ev rest ih =>
    intro h hh
    show (run_user_success (handle_text_message h ev.1 (fun _ _ => BackendResult.ok ev.2)).1 rest).length =
      min (h.length + 2 * (ev :: rest).length) 20
    rw [ih _ (by rw [handle_ok_length]; omega)]
    rw [handle_ok_length, List.length_cons]
    omega

theorem storeInv_run_success (evs : List (UserId × String × String)) :
    ∀ s : BotState, (∀ u, histInv (s.chat_history u)) →
      ∀ u, histInv ((run_success s evs).chat_history u) := by
  induction evs with
  | nil => intro s hs u; exact hs u
  | cons ev rest ih =>
    intro s hs u
    apply ih
    intro v
    show histInv (if v = ev.1
      then (handle_text_message (s.chat_history ev.1) ev.2.1 (fun _ _ => BackendResult.ok ev.2.2)).1
      else s.chat_history v)
    by_cases hv : v = ev.1
    · rw [if_pos hv]
      exact histInv_handle_ok _ _ _ (hs ev.1)
    · rw [if_neg hv]
      exact hs v

/-! ## Claim theorems: conversation store and dispatcher -/

/-- C2 counterexample: 21 text events whose backend calls all fail leave
that user's History at length 21, exceeding the fixed cap of 20 — the user
turn of a failing event is appended and the trim step never runs. -/
theorem history_cap_refuted_on_failures :
    20 < ((run_failing empty_state (List.replicate 21 ((0 : UserId), "x"))).chat_history 0).length := by
  decide

/-- C2 (amended): for every user, after any sequence of text-message events
whose backend calls all succeed, that user's History never exceeds 20
entries and consists of whole user+model pairs (oldest turns are dropped in
pairs, preserving alternation); a failing backend call can push the History
past the cap. -/
theorem history_cap_success_runs (evs : List (UserId × String × String)) (uid : UserId) :
    ((run_success empty_state evs).chat_history uid).length ≤ 20 ∧
    pairsUM (rolesOf ((run_success empty_state evs).chat_history uid)) = true :=
  storeInv_run_success evs empty_state (fun _ => ⟨Nat.zero_le 20, rfl⟩) uid

/-- C3 counterexample: for a text event whose backend call fails, the
History length after the event differs from its length before: starting
from an empty History it is 1, not 0 — the user turn appended before the
call remains. -/
theorem failure_preserves_length_refuted :
    ¬ ((handle_text_message [] "hi" (fun _ _ => BackendResult.err "boom")).1.length
        = ([] : List Turn).length) := by
  decide

/-- C3 (amended): on a text event whose backend call fails, the History
becomes the old History plus the already-appended user turn (length grows
by exactly one, no model turn is appended), and the only outbound message
is the single error message containing the raw failure cause. -/
theorem failure_appends_user_turn_only (hist : List Turn) (t e : String) :
    (handle_text_message hist t (fun _ _ => BackendResult.err e)).1 =
      hist ++ [Turn.mk Role.user [t]] ∧
    (handle_text_message hist t (fun _ _ => BackendResult.err e)).1.length =
      hist.length + 1 ∧
    (handle_text_message hist t (fun _ _ => BackendResult.err e)).2 = [error_text e] ∧
    ∃ a b, error_text e = a ++ e ++ b :=
  ⟨rfl, by simp [handle_text_message], rfl,
    ⟨"❌ **Произошла ошибка:**\n`", "`\n\nПопробуйте еще раз.", rfl⟩⟩

/-- C6: for a fresh user, after N all-success exchanges (2N alternating
appends starting with a user turn) the History has length exactly
min(2N, 20), is always even, and always starts with a user turn when
non-empty; in the concrete 11-exchange scenario (22 turns) the final
History has length exactly 20 and the two turns of the first exchange are
absent. -/
theorem fresh_user_history_growth :
    (∀ evs : List (String × String),
      (run_user_success [] evs).length = min (2 * evs.length) 20 ∧
      (run_user_success [] evs).length % 2 = 0 ∧
      (evs ≠ [] → (rolesOf (run_user_success [] evs)).head? = some Role.user)) ∧
    ((run_user_success [] evs11).length = 20 ∧
      Turn.mk Role.user ["u0"] ∉ run_user_success [] evs11 ∧
      Turn.mk Role.model ["m0"] ∉ run_user_success [] evs11) := by
  constructor
  · intro evs
    have hlen := run_user_success_length evs [] (by simp)
    simp only [List.length_nil] at hlen
    have hinv := histInv_run_user evs [] ⟨by simp, rfl⟩
    refine ⟨by rw [hlen]; omega, ?_, ?_⟩
    · have := pairsUM_length_even _ hinv.2
      have hr : (rolesOf (run_user_success [] evs)).length = (run_user_success [] evs).length := by
        unfold rolesOf
        rw [List.length_map]
      omega
    · intro hne
      apply pairsUM_head _ hinv.2
      have h1 : 1 ≤ evs.length := by
        rcases evs with _ | ⟨e, l⟩
        · exact absurd rfl hne
        · simp only [List.length_cons]
          omega
      have : 0 < (rolesOf (run_user_success [] evs)).length := by
        unfold rolesOf
        rw [List.length_map, hlen]
        omega
      intro hcon
      rw [hcon] at this
      simp at this
  · refine ⟨by decide, by decide, by decide⟩

/-- Witness for C6's inner hypothesis (a non-empty exchange list) at a
concrete one-exchange input. -/
theorem fresh_user_history_growth_witness :
    ([("a", "b")] ≠ ([] : List (String × String))) ∧
    (rolesOf (run_user_success [] [("a", "b")])).head? = some Role.user :=
  ⟨by decide, (fresh_user_history_growth.1 [("a", "b")]).2.2 (by decide)⟩

/-- C8: handling a photo-message event leaves every user's History in the
Conversation Store unchanged, whether the vision backend call succeeds or
fails: the image-describe path neither reads nor writes any per-user
History. -/
theorem photo_path_preserves_history (s : BotState) (caption : Option String)
    (vision : String → BackendResult) (uid : UserId) :
    ((handle_photo_message s caption vision).1).chat_history uid = s.chat_history uid := by
  unfold handle_photo_message
  rcases vision (choose_prompt caption) with r | e
  · rfl
  · rfl

/-- C9: a photo event whose caption is present but empty invokes the vision
backend with the fixed default prompt, exactly as when the caption is
absent: an empty-string caption is indistinguishable from no caption. -/
theorem empty_caption_default_prompt :
    choose_prompt (some "") = default_photo_prompt ∧
    choose_prompt none = default_photo_prompt ∧
    ∀ (s : BotState) (vision : String → BackendResult),
      handle_photo_message s (some "") vision = handle_photo_message s none vision :=
  ⟨rfl, rfl, fun _ _ => rfl⟩

end GeminiBot
